import Mathlib

/-!
Shallow embedding of the modal editing core of `src/src/engram.tsx`:
the document model (Topic → Concept → Derivative), the undo/redo history
manager (`useUndo`), the motion engine (`findNextWord`, `findPrevWord`,
`findEndWord`, line helpers), derivative sorting, yank/paste, search
navigation, and the relevant pieces of the key dispatcher.  JS strings are
modelled as `List Char`, JS numbers used as cursors as `Int` at clamping
sites (they can be negative there) and `Nat` at indexing sites.
-/

namespace Engram

/-! ## Data model -/

inductive DerivativeType
  | PROBING
  | CLOZE
  | ELABORATION
deriving DecidableEq, Repr

structure Derivative where
  id : String
  type : DerivativeType
  text : String
  aiResponse : Option String := none
deriving DecidableEq, Repr

structure Concept where
  id : String
  text : String
  aiResponse : Option String := none
  derivatives : List Derivative
deriving DecidableEq, Repr

instance : Inhabited Concept := ⟨⟨"", "", none, []⟩⟩

structure Topic where
  id : String
  title : String
  concepts : List Concept
deriving DecidableEq, Repr

/-- One undo/redo unit: a full topic snapshot plus the focus coordinates.
`derivIdx = -1` focuses the concept itself, hence `Int`. -/
structure HistoryState where
  topic : Topic
  cursorIdx : Nat
  derivIdx : Int
deriving DecidableEq, Repr

/-! ## History manager (`useUndo`) -/

structure History where
  past : List HistoryState
  present : HistoryState
  future : List HistoryState
deriving DecidableEq, Repr

/-- `pushState`: append `present` to `past`, install the new present, clear `future`. -/
def pushState (h : History) (s : HistoryState) : History :=
  { past := h.past ++ [h.present], present := s, future := [] }

/-- `undo`: no-op when `past` is empty; otherwise pop the last of `past` into
`present` and prepend the old `present` to `future`. -/
def undo (h : History) : History :=
  match h.past.getLast? with
  | none => h
  | some previous =>
      { past := h.past.dropLast, present := previous, future := h.present :: h.future }

/-- `redo`: no-op when `future` is empty; otherwise shift the head of `future`
into `present` and append the old `present` to `past`. -/
def redo (h : History) : History :=
  match h.future with
  | [] => h
  | next :: rest =>
      { past := h.past ++ [h.present], present := next, future := rest }

/-- `commitFrom`: like `pushState` but appends an explicit `base` to `past`. -/
def commitFrom (h : History) (base s : HistoryState) : History :=
  { past := h.past ++ [base], present := s, future := [] }

/-! ## Motion engine -/

/-- `/[a-zA-Z0-9_]/` (ASCII ranges, as the JS regex). -/
def isWordChar (c : Char) : Bool :=
  c.isAlpha || c.isDigit || c == '_'

/-- `while (i < text.length && isWordChar(text[i])) i++` scanning the suffix
`text.drop i` with running index `i`. -/
def skipWordAux : List Char → Nat → Nat
  | [], i => i
  | c :: rest, i => if isWordChar c then skipWordAux rest (i + 1) else i

/-- `while (i < text.length && !isWordChar(text[i])) i++`. -/
def skipNonWordAux : List Char → Nat → Nat
  | [], i => i
  | c :: rest, i => if isWordChar c then i else skipNonWordAux rest (i + 1)

/-- `findNextWord`.  The source guards the first loop with
`if (isWordChar(text[i]))`, which is redundant because the loop re-checks the
same condition on its first iteration. -/
def findNextWord (text : List Char) (idx : Nat) : Nat :=
  if text.length ≤ idx then text.length
  else
    let i := skipWordAux (text.drop idx) idx
    skipNonWordAux (text.drop i) i

/-- `while (i > 0 && !isWordChar(text[i])) i--`.  Out-of-range reads use a
space, a non-word character, matching the suffix-free behaviour at in-range
inputs. -/
def skipNonWordBack (text : List Char) : Nat → Nat
  | 0 => 0
  | i + 1 => if isWordChar (text.getD (i + 1) ' ') then i + 1 else skipNonWordBack text i

/-- `while (i > 0 && isWordChar(text[i - 1])) i--`. -/
def skipWordStartBack (text : List Char) : Nat → Nat
  | 0 => 0
  | i + 1 => if isWordChar (text.getD i ' ') then skipWordStartBack text i else i + 1

/-- `findPrevWord`. -/
def findPrevWord (text : List Char) (idx : Nat) : Nat :=
  if idx = 0 then 0
  else skipWordStartBack text (skipNonWordBack text (idx - 1))

/-- `while (i < text.length - 1 && isWordChar(text[i + 1])) i++`, scanning the
suffix `text.drop (i + 1)`. -/
def extendWordAux : List Char → Nat → Nat
  | [], i => i
  | c :: rest, i => if isWordChar c then extendWordAux rest (i + 1) else i

def extendWordEnd (text : List Char) (i : Nat) : Nat :=
  extendWordAux (text.drop (i + 1)) i

/-- `findEndWord`. -/
def findEndWord (text : List Char) (idx : Nat) : Nat :=
  if text.length = 0 then 0
  else
    let i := min idx (text.length - 1)
    let atEndOfWord := isWordChar (text.getD i ' ') &&
      (i == text.length - 1 || !isWordChar (text.getD (i + 1) ' '))
    if !isWordChar (text.getD i ' ') || atEndOfWord then
      let j := skipNonWordAux (text.drop (i + 1)) (i + 1)
      if text.length ≤ j then text.length - 1
      else extendWordEnd text j
    else extendWordEnd text i

/-- `text.lastIndexOf('\n', j)` turned into "index after the nearest newline":
scan `j` downward; a hit at position `p` yields `p + 1`, no hit yields `0`. -/
def findLineStartGo (text : List Char) : Nat → Nat
  | 0 => if text.getD 0 'a' == '\n' then 1 else 0
  | j + 1 => if text.getD (j + 1) 'a' == '\n' then j + 2 else findLineStartGo text j

/-- `findLineStart`: `lastIndexOf('\n', max(0, idx - 1))` plus one, or `0`. -/
def findLineStart (text : List Char) (idx : Nat) : Nat :=
  findLineStartGo text (idx - 1)

/-- `text.indexOf('\n', i)` with `text.length` for "not found". -/
def findLineEndAux : List Char → Nat → Nat
  | [], i => i
  | c :: rest, i => if c == '\n' then i else findLineEndAux rest (i + 1)

def findLineEnd (text : List Char) (idx : Nat) : Nat :=
  findLineEndAux (text.drop idx) idx

/-- `moveCursorLine`.  The column is `idx - lineStart` on JS numbers, which can
be `-1` when the text starts with a newline and `idx = 0`, so it is kept in
`Int`. -/
def moveCursorLine (text : List Char) (idx : Int) (direction : Int) : Int :=
  if ¬ text.contains '\n' then idx
  else
    let lineStart := findLineStart text idx.toNat
    let lineEnd := findLineEnd text idx.toNat
    let column : Int := idx - lineStart
    if direction = 1 then
      if (text.length : Int) ≤ (lineEnd : Int) then idx
      else
        let nextStart : Int := (lineEnd : Int) + 1
        let nextEnd := findLineEnd text (lineEnd + 1)
        min (nextStart + column) (max nextStart ((nextEnd : Int) - 1))
    else
      if lineStart = 0 then idx
      else
        let prevEnd : Int := (lineStart : Int) - 1
        let prevStart := findLineStart text (lineStart - 1)
        min ((prevStart : Int) + column) (max (prevStart : Int) prevEnd)

/-! ## C1: undo/redo algebra -/

/-- C1.  For every history-manager state with present `s1`, after
`pushState s2`: `undo` restores `s1`, a subsequent `redo` restores `s2`,
`pushState` leaves `future` empty so an immediate `redo` is a no-op, and
`undo` (`redo`) is a no-op whenever `past` (`future`) is empty. -/
theorem C1_undo_redo (h : History) (s1 s2 : HistoryState) (hp : h.present = s1) :
    (undo (pushState h s2)).present = s1 ∧
    (redo (undo (pushState h s2))).present = s2 ∧
    (pushState h s2).future = [] ∧
    redo (pushState h s2) = pushState h s2 ∧
    (∀ g : History, g.past = [] → undo g = g) ∧
    (∀ g : History, g.future = [] → redo g = g) := by
  subst hp
  refine ⟨?_, ?_, rfl, rfl, ?_, ?_⟩
  · simp [pushState, undo]
  · simp [pushState, undo, redo]
  · intro g hg
    simp [undo, hg]
  · intro g hg
    simp [redo, hg]

def sampleState (n : Nat) : HistoryState :=
  ⟨⟨"t1", "T", [⟨"c1", "x", none, []⟩]⟩, n, -1⟩

theorem C1_undo_redo_witness :
    (⟨[], sampleState 0, []⟩ : History).present = sampleState 0 ∧
    ((undo (pushState ⟨[], sampleState 0, []⟩ (sampleState 1))).present = sampleState 0 ∧
      (redo (undo (pushState ⟨[], sampleState 0, []⟩ (sampleState 1)))).present = sampleState 1 ∧
      (pushState ⟨[], sampleState 0, []⟩ (sampleState 1)).future = [] ∧
      redo (pushState ⟨[], sampleState 0, []⟩ (sampleState 1)) =
        pushState ⟨[], sampleState 0, []⟩ (sampleState 1) ∧
      (∀ g : History, g.past = [] → undo g = g) ∧
      (∀ g : History, g.future = [] → redo g = g)) :=
  ⟨rfl, C1_undo_redo ⟨[], sampleState 0, []⟩ (sampleState 0) (sampleState 1) rfl⟩

/-! ## C3: word-motion stepping rule -/

/-- C3.  The literal stepping rule on `"abc def"`:
`nextWordStart("abc def", 0) = 4`, `prevWordStart("abc def", 4) = 0`,
`wordEnd("abc def", 0) = 2`. -/
theorem C3_word_motions :
    findNextWord ("abc def".toList) 0 = 4 ∧
    findPrevWord ("abc def".toList) 4 = 0 ∧
    findEndWord ("abc def".toList) 0 = 2 := by
  decide

/-! ## C5: derivative sorting -/

/-- The rank table `{ PROBING: 0, CLOZE: 1, ELABORATION: 2 }`. -/
def typeRank : DerivativeType → Nat
  | .PROBING => 0
  | .CLOZE => 1
  | .ELABORATION => 2

/-- Stable insertion by rank: an element is placed after every element of
strictly smaller rank and before the first element of rank ≥ its own, so
earlier same-type elements stay ahead — the behaviour of the (stable) JS
`Array.prototype.sort` with the comparator in `sortDerivatives`. -/
def insertByRank (d : Derivative) : List Derivative → List Derivative
  | [] => [d]
  | e :: rest =>
      if typeRank e.type < typeRank d.type then e :: insertByRank d rest
      else d :: e :: rest

/-- `sortDerivatives`: stable sort by type rank. -/
def sortDerivatives : List Derivative → List Derivative
  | [] => []
  | d :: rest => insertByRank d (sortDerivatives rest)

/-- The BLOCK-mode `o` chords (`op`/`oc`/`oe`) and AI appends all do
`sortDerivatives([...derivatives, newDeriv])`. -/
def appendDerivativeSorted (c : Concept) (d : Derivative) : Concept :=
  { c with derivatives := sortDerivatives (c.derivatives ++ [d]) }

def rankLE (a b : Derivative) : Prop := typeRank a.type ≤ typeRank b.type

theorem mem_insertByRank {x d : Derivative} {l : List Derivative} :
    x ∈ insertByRank d l ↔ x = d ∨ x ∈ l := by
  induction l with
  | nil => simp [insertByRank]
  | cons e rest ih =>
      by_cases hlt : typeRank e.type < typeRank d.type
      · rw [insertByRank, if_pos hlt]
        simp [ih]
        tauto
      · rw [insertByRank, if_neg hlt]
        simp

theorem pairwise_insertByRank (d : Derivative) (l : List Derivative)
    (hl : l.Pairwise rankLE) : (insertByRank d l).Pairwise rankLE := by
  induction l with
  | nil => simp [insertByRank, rankLE]
  | cons e rest ih =>
      rcases List.pairwise_cons.1 hl with ⟨he, hrest⟩
      by_cases hlt : typeRank e.type < typeRank d.type
      · rw [insertByRank, if_pos hlt]
        refine List.pairwise_cons.2 ⟨?_, ih hrest⟩
        intro x hx
        rcases mem_insertByRank.1 hx with hx | hx
        · exact hx ▸ le_of_lt hlt
        · exact he x hx
      · rw [insertByRank, if_neg hlt]
        refine List.pairwise_cons.2 ⟨?_, hl⟩
        intro x hx
        rcases List.mem_cons.1 hx with hx | hx
        · exact hx ▸ le_of_not_lt hlt
        · exact le_trans (le_of_not_lt hlt) (he x hx)

theorem pairwise_sortDerivatives (l : List Derivative) :
    (sortDerivatives l).Pairwise rankLE := by
  induction l with
  | nil => exact List.Pairwise.nil
  | cons d rest ih => exact pairwise_insertByRank d _ ih

theorem filter_insertByRank (d : Derivative) (l : List Derivative)
    (p : Derivative → Bool) (hp : ∀ e, typeRank e.type < typeRank d.type → p e = false)
    (hd : p d = true) :
    (insertByRank d l).filter p = d :: l.filter p := by
  induction l with
  | nil => simp [insertByRank, hd]
  | cons e rest ih =>
      by_cases hlt : typeRank e.type < typeRank d.type
      · rw [insertByRank, if_pos hlt]
        simp [List.filter_cons, hp e hlt, ih]
      · rw [insertByRank, if_neg hlt]
        simp [List.filter_cons, hd]

theorem filter_insertByRank_neg (d : Derivative) (l : List Derivative)
    (p : Derivative → Bool) (hd : p d = false) :
    (insertByRank d l).filter p = l.filter p := by
  induction l with
  | nil => simp [insertByRank, hd]
  | cons e rest ih =>
      by_cases hlt : typeRank e.type < typeRank d.type
      · rw [insertByRank, if_pos hlt]
        simp [List.filter_cons, ih]
      · rw [insertByRank, if_neg hlt]
        simp [List.filter_cons, hd]

theorem typeRank_injective {a b : DerivativeType} (h : typeRank a = typeRank b) : a = b := by
  cases a <;> cases b <;> simp_all [typeRank]

/-- Same-type relative order is untouched by the sort. -/
theorem filter_sortDerivatives (l : List Derivative) (t : DerivativeType) :
    (sortDerivatives l).filter (fun d => d.type == t) =
      l.filter (fun d => d.type == t) := by
  induction l with
  | nil => rfl
  | cons d rest ih =>
      by_cases hdt : d.type = t
      · rw [sortDerivatives, filter_insertByRank d _ _ ?_ (by simp [hdt]),
          List.filter_cons_of_pos (by simp [hdt]), ih]
        intro e he
        by_cases het : e.type = t
        · exact absurd (het.trans hdt.symm ▸ rfl : typeRank e.type = typeRank d.type)
            (ne_of_lt he)
        · simp [het]
      · rw [sortDerivatives, filter_insertByRank_neg d _ _ (by simp [hdt]),
          List.filter_cons_of_neg (by simp [hdt]), ih]

/-- C5.  Every derivative insertion (`op`/`oc`/`oe` chords, AI appends) keeps
the concept's derivative list sorted by rank PROBING < CLOZE < ELABORATION;
the comparator is stable (the relative order of same-type derivatives is the
input order); inserting a PROBING derivative into `[CLOZE]` yields
`[PROBING, CLOZE]`. -/
theorem C5_derivative_sort :
    (∀ (c : Concept) (d : Derivative),
        ((appendDerivativeSorted c d).derivatives).Pairwise rankLE) ∧
    (∀ (l : List Derivative) (t : DerivativeType),
        (sortDerivatives l).filter (fun d => d.type == t) =
          l.filter (fun d => d.type == t)) ∧
    (∀ (c : Concept) (dc dp : Derivative),
        c.derivatives = [dc] → dc.type = .CLOZE → dp.type = .PROBING →
        (appendDerivativeSorted c dp).derivatives = [dp, dc]) := by
  refine ⟨fun c d => pairwise_sortDerivatives _, filter_sortDerivatives, ?_⟩
  intro c dc dp hc hdc hdp
  simp [appendDerivativeSorted, hc, sortDerivatives, insertByRank, typeRank, hdc, hdp]

/-! ## C4: BLOCK-mode `dd` on a focused concept -/

/-- `topic.concepts.filter((_, i) => i !== cursorIdx)` as an index-tracking
scan. -/
def removeConceptAtGo (k : Nat) : List Concept → Nat → List Concept
  | [], _ => []
  | c :: rest, i =>
      if i = k then removeConceptAtGo k rest (i + 1)
      else c :: removeConceptAtGo k rest (i + 1)

/-- The BLOCK `dd` handler for a focused concept (`derivIdx = -1`): filter out
the concept at `cursorIdx`, replace an emptied list by one fresh empty concept,
and clamp the cursor to `min cursorIdx (newLength - 1)`.  `freshId` stands for
the `generateId()` call. -/
def blockDeleteConcept (freshId : String) (t : Topic) (k : Nat) : Topic × Nat :=
  let filtered := removeConceptAtGo k t.concepts 0
  let concepts := if filtered = [] then [⟨freshId, "", none, []⟩] else filtered
  ({ t with concepts := concepts }, min k (concepts.length - 1))

/-- C4.  Deleting the focused concept with `dd` leaves the concept list
non-empty; when it was the only concept the result is exactly one empty
concept with no derivatives; the cursor is clamped to
`min cursorIdx (newLength - 1)`. -/
theorem C4_dd_nonempty (freshId : String) (t : Topic) (k : Nat)
    (hk : k < t.concepts.length) :
    (blockDeleteConcept freshId t k).1.concepts ≠ [] ∧
    (blockDeleteConcept freshId t k).2 =
      min k ((blockDeleteConcept freshId t k).1.concepts.length - 1) ∧
    (t.concepts.length = 1 →
      (blockDeleteConcept freshId t k).1.concepts = [⟨freshId, "", none, []⟩]) := by
  obtain ⟨tid, ttitle, cs⟩ := t
  refine ⟨?_, ?_, ?_⟩
  · by_cases h : removeConceptAtGo k cs 0 = [] <;>
      simp [blockDeleteConcept, h]
  · by_cases h : removeConceptAtGo k cs 0 = [] <;>
      simp [blockDeleteConcept, h]
  · intro hlen
    rcases cs with _ | ⟨c, rest⟩
    · simp at hlen
    · have hrest : rest = [] := by
        simpa using hlen
      subst hrest
      have hk0 : k = 0 := by
        simpa using hk
      subst hk0
      simp [blockDeleteConcept, removeConceptAtGo]

theorem C4_dd_nonempty_witness :
    (0 < (Topic.mk "t" "T" [⟨"c", "hello", none, []⟩]).concepts.length) ∧
    ((blockDeleteConcept "n1" (Topic.mk "t" "T" [⟨"c", "hello", none, []⟩]) 0).1.concepts ≠ [] ∧
      (blockDeleteConcept "n1" (Topic.mk "t" "T" [⟨"c", "hello", none, []⟩]) 0).2 =
        min 0 ((blockDeleteConcept "n1" (Topic.mk "t" "T" [⟨"c", "hello", none, []⟩]) 0).1.concepts.length - 1) ∧
      ((Topic.mk "t" "T" [⟨"c", "hello", none, []⟩]).concepts.length = 1 →
        (blockDeleteConcept "n1" (Topic.mk "t" "T" [⟨"c", "hello", none, []⟩]) 0).1.concepts =
          [⟨"n1", "", none, []⟩])) :=
  ⟨by decide, C4_dd_nonempty "n1" (Topic.mk "t" "T" [⟨"c", "hello", none, []⟩]) 0 (by decide)⟩

/-! ## Mode controller: BLOCK-mode focus movement -/

inductive Mode
  | BLOCK
  | NORMAL
  | INSERT
deriving DecidableEq, Repr

/-- `currentDeriv`: non-null only when `derivIdx ≥ 0` and the focused concept
has more than `derivIdx` derivatives. -/
def currentDeriv (s : HistoryState) : Option Derivative :=
  match s.topic.concepts[s.cursorIdx]? with
  | none => none
  | some c =>
      if 0 ≤ s.derivIdx ∧ s.derivIdx < (c.derivatives.length : Int) then
        c.derivatives[s.derivIdx.toNat]?
      else none

/-- `derivIdx === -1 ? currentConcept.text : (currentDeriv?.text || '')`. -/
def focusText (s : HistoryState) : String :=
  match s.topic.concepts[s.cursorIdx]? with
  | none => ""
  | some c =>
      if s.derivIdx = -1 then c.text
      else
        match currentDeriv s with
        | some d => d.text
        | none => ""

/-- BLOCK `j`. -/
def blockJ (s : HistoryState) : HistoryState :=
  if s.derivIdx = -1 then
    { s with cursorIdx := min (s.cursorIdx + 1) (s.topic.concepts.length - 1) }
  else
    let maxIdx : Int := max 0 (((s.topic.concepts.getD s.cursorIdx default).derivatives.length : Int) - 1)
    { s with derivIdx := min (s.derivIdx + 1) maxIdx }

/-- BLOCK `k`. -/
def blockK (s : HistoryState) : HistoryState :=
  if s.derivIdx = -1 then { s with cursorIdx := s.cursorIdx - 1 }
  else { s with derivIdx := max 0 (s.derivIdx - 1) }

/-- BLOCK `h`. -/
def blockH (s : HistoryState) : HistoryState :=
  if s.derivIdx ≠ -1 then { s with derivIdx := -1 } else s

/-- BLOCK `l`: sets `derivIdx := 0` whenever a concept is focused, with no
check that a derivative exists. -/
def blockL (s : HistoryState) : HistoryState :=
  if s.derivIdx = -1 then { s with derivIdx := 0 } else s

/-- BLOCK `i`: guarded by `derivIdx !== -1 && !currentDeriv`; on success enters
NORMAL with the character cursor at 0. -/
def blockI (s : HistoryState) : Option (Mode × Nat) :=
  if s.derivIdx ≠ -1 ∧ currentDeriv s = none then none
  else some (Mode.NORMAL, 0)

/-- BLOCK `a`: same guard; on success enters NORMAL at the end of the text. -/
def blockA (s : HistoryState) : Option (Mode × Nat) :=
  if s.derivIdx ≠ -1 ∧ currentDeriv s = none then none
  else some (Mode.NORMAL, (focusText s).length)

/-- C10.  With a concept focused, `l` sets `derivIdx` to 0 even when the
derivative list is empty; in that dangling state `i` and `a` are no-ops,
`j` and `k` keep `derivIdx` at 0, and `h` restores `derivIdx = -1`. -/
theorem C10_dangling_focus (t : Topic) (k : Nat) (hk : k < t.concepts.length)
    (hd : (t.concepts.getD k default).derivatives = []) :
    blockL ⟨t, k, -1⟩ = ⟨t, k, 0⟩ ∧
    blockI ⟨t, k, 0⟩ = none ∧
    blockA ⟨t, k, 0⟩ = none ∧
    blockJ ⟨t, k, 0⟩ = ⟨t, k, 0⟩ ∧
    blockK ⟨t, k, 0⟩ = ⟨t, k, 0⟩ ∧
    blockH ⟨t, k, 0⟩ = ⟨t, k, -1⟩ := by
  have hget : t.concepts[k]? = some (t.concepts.getD k default) := by
    rw [List.getElem?_eq_getElem hk]
    rw [List.getD_eq_getElem?_getD, List.getElem?_eq_getElem hk]
    rfl
  have hcd : currentDeriv ⟨t, k, 0⟩ = none := by
    simp only [currentDeriv, hget, hd]
    norm_num
  refine ⟨?_, ?_, ?_, ?_, ?_, ?_⟩
  · simp [blockL]
  · simp [blockI, hcd]
  · simp [blockA, hcd]
  · have hlen0 : (t.concepts[k]?.getD default).derivatives = [] := by
      rw [hget, Option.getD_some]
      exact hd
    simp [blockJ, hlen0]
  · simp [blockK]
  · simp [blockH]

def danglingTopic : Topic := ⟨"t", "T", [⟨"c", "x", none, []⟩]⟩

theorem C10_dangling_focus_witness :
    (0 < danglingTopic.concepts.length ∧
      (danglingTopic.concepts.getD 0 default).derivatives = []) ∧
    (blockL ⟨danglingTopic, 0, -1⟩ = ⟨danglingTopic, 0, 0⟩ ∧
      blockI ⟨danglingTopic, 0, 0⟩ = none ∧
      blockA ⟨danglingTopic, 0, 0⟩ = none ∧
      blockJ ⟨danglingTopic, 0, 0⟩ = ⟨danglingTopic, 0, 0⟩ ∧
      blockK ⟨danglingTopic, 0, 0⟩ = ⟨danglingTopic, 0, 0⟩ ∧
      blockH ⟨danglingTopic, 0, 0⟩ = ⟨danglingTopic, 0, -1⟩) :=
  ⟨⟨by decide, by decide⟩,
    C10_dangling_focus danglingTopic 0 (by decide) (by decide)⟩

/-! ## C6: NORMAL-mode paste of a text clipboard -/

/-- `yy` while a yank is pending stores the whole focused text. -/
def yankWholeLine (text : List Char) : List Char := text

theorem splice_take {α : Type} (p m s : List α) (n : Nat) (h : p.length = n) :
    (p ++ m ++ s).take n = p := by
  subst h
  rw [List.append_assoc]
  exact List.take_left p (m ++ s)

theorem splice_drop {α : Type} (p m s : List α) (n : Nat) (h : p.length = n) :
    (p ++ m ++ s).drop (n + m.length) = s := by
  subst h
  rw [← List.length_append]
  exact List.drop_left (p ++ m) s

theorem splice_mid {α : Type} (p m s : List α) (n : Nat) (h : p.length = n) :
    ((p ++ m ++ s).drop n).take m.length = m := by
  subst h
  rw [List.append_assoc, List.drop_left, List.take_left]

/-- The `mode === 'NORMAL' && yankText` branch of `pasteYanked`: insert the
stored text at the clamped cursor and move the cursor past it. -/
def pasteTextNormal (text : List Char) (c : Int) (yank : List Char) :
    List Char × Int :=
  let insertAt := (max 0 (min ((text.length : Int)) c)).toNat
  (text.take insertAt ++ yank ++ text.drop insertAt,
    (insertAt : Int) + yank.length)

/-- C6.  Paste with a non-empty text clipboard inserts the stored text at the
cursor offset clamped into `[0, text.length]` (prefix and suffix of the old
text survive unchanged around the pasted text) and sets the cursor to that
offset plus the pasted length; `yy` then `p` on `"abc"` at cursor 0 yields
`"abcabc"`. -/
theorem C6_paste_text (text : List Char) (c : Int) (yank : List Char)
    (_hy : yank ≠ []) :
    (0 ≤ max 0 (min ((text.length : Int)) c) ∧
      max 0 (min ((text.length : Int)) c) ≤ (text.length : Int)) ∧
    ((pasteTextNormal text c yank).1.take
        ((max 0 (min ((text.length : Int)) c)).toNat) =
      text.take ((max 0 (min ((text.length : Int)) c)).toNat) ∧
     (pasteTextNormal text c yank).1.drop
        ((max 0 (min ((text.length : Int)) c)).toNat + yank.length) =
      text.drop ((max 0 (min ((text.length : Int)) c)).toNat) ∧
     ((pasteTextNormal text c yank).1.drop
        ((max 0 (min ((text.length : Int)) c)).toNat)).take yank.length = yank ∧
     (pasteTextNormal text c yank).2 =
       (((max 0 (min ((text.length : Int)) c)).toNat : Int)) + yank.length) ∧
    pasteTextNormal ("abc".toList) 0 (yankWholeLine ("abc".toList)) =
      ("abcabc".toList, 3) := by
  have hclamp : (max 0 (min ((text.length : Int)) c)).toNat ≤ text.length := by
    omega
  have hlen : (text.take ((max 0 (min ((text.length : Int)) c)).toNat)).length =
      (max 0 (min ((text.length : Int)) c)).toNat := by
    simp [List.length_take, hclamp]
  refine ⟨⟨le_max_left _ _, ?_⟩, ⟨?_, ?_, ?_, rfl⟩, by decide⟩
  · omega
  · simp only [pasteTextNormal]
    exact splice_take _ _ _ _ hlen
  · simp only [pasteTextNormal]
    exact splice_drop _ _ _ _ hlen
  · simp only [pasteTextNormal]
    exact splice_mid _ _ _ _ hlen

theorem C6_paste_text_witness :
    ("abc".toList ≠ ([] : List Char)) ∧
    ((0 ≤ max 0 (min ((("abc".toList : List Char).length : Int)) 0) ∧
        max 0 (min ((("abc".toList : List Char).length : Int)) 0) ≤
          (("abc".toList : List Char).length : Int)) ∧
      ((pasteTextNormal ("abc".toList) 0 ("abc".toList)).1.take
          ((max 0 (min ((("abc".toList : List Char).length : Int)) 0)).toNat) =
        ("abc".toList).take
          ((max 0 (min ((("abc".toList : List Char).length : Int)) 0)).toNat) ∧
       (pasteTextNormal ("abc".toList) 0 ("abc".toList)).1.drop
          ((max 0 (min ((("abc".toList : List Char).length : Int)) 0)).toNat +
            ("abc".toList : List Char).length) =
        ("abc".toList).drop
          ((max 0 (min ((("abc".toList : List Char).length : Int)) 0)).toNat) ∧
       ((pasteTextNormal ("abc".toList) 0 ("abc".toList)).1.drop
          ((max 0 (min ((("abc".toList : List Char).length : Int)) 0)).toNat)).take
          ("abc".toList : List Char).length = "abc".toList ∧
       (pasteTextNormal ("abc".toList) 0 ("abc".toList)).2 =
         (((max 0 (min ((("abc".toList : List Char).length : Int)) 0)).toNat : Int)) +
           ("abc".toList : List Char).length) ∧
      pasteTextNormal ("abc".toList) 0 (yankWholeLine ("abc".toList)) =
        ("abcabc".toList, 3)) :=
  ⟨by decide, C6_paste_text ("abc".toList) 0 ("abc".toList) (by decide)⟩

/-! ## Insert-session machinery (C2, C9) -/

def listModify {α : Type} (f : α → α) : Nat → List α → List α
  | _, [] => []
  | 0, a :: rest => f a :: rest
  | n + 1, a :: rest => a :: listModify f n rest

def conceptWithText (text : String) (c : Concept) : Concept :=
  { c with text := text }

def derivWithText (text : String) (d : Derivative) : Derivative :=
  { d with text := text }

def conceptWithDerivText (text : String) (dIdx : Nat) (c : Concept) : Concept :=
  { c with derivatives := listModify (derivWithText text) dIdx c.derivatives }

/-- `buildTopicWithText`: replace the focused field's text, leaving all other
structure alone. -/
def buildTopicWithText (topic : Topic) (cursorIdx : Nat) (derivIdx : Int)
    (text : String) : Topic :=
  if derivIdx = -1 then
    { topic with concepts := listModify (conceptWithText text) cursorIdx topic.concepts }
  else
    { topic with concepts := listModify (conceptWithDerivText text derivIdx.toNat) cursorIdx topic.concepts }

/-- The dispatcher state relevant to an Insert session: the history, the mode,
the dirty flag, the skip-commit flag set by change operations, and the
remembered session base (`insertBaseStateRef`). -/
structure EditorState where
  hist : History
  mode : Mode
  insertDirty : Bool
  insertSkipCommit : Bool
  insertBase : Option HistoryState
deriving DecidableEq, Repr

/-- `setMode('INSERT')` together with the `[mode]` effect: remember the
current present as the session base when none is set yet, and clear the dirty
flag. -/
def enterInsert (s : EditorState) : EditorState :=
  { s with
    mode := .INSERT,
    insertBase :=
      match s.insertBase with
      | none => some s.hist.present
      | some b => some b,
    insertDirty := false }

/-- `updateText` fired by the host textarea: the present snapshot is replaced
in place (no history push) and the dirty flag is set when the mode is
INSERT. -/
def presentWithText (p : HistoryState) (text : String) : HistoryState :=
  { p with topic := buildTopicWithText p.topic p.cursorIdx p.derivIdx text }

def updateTextInsert (s : EditorState) (text : String) : EditorState :=
  { s with
    hist := { s.hist with present := presentWithText s.hist.present text },
    insertDirty := if s.mode = .INSERT then true else s.insertDirty }

/-- `commitToHistory`: `commitFrom(insertBase, present)` when a session base is
remembered, else a plain `pushState(present)`. -/
def commitToHistory (hist : History) (base : Option HistoryState) : History :=
  match base with
  | some b => commitFrom hist b hist.present
  | none => pushState hist hist.present

/-- The INSERT-mode `Escape` handler: go to NORMAL, commit when the session is
dirty and no change operation suppressed the commit, reset the session flags,
and set the cursor to `Math.max(0, normalCursorRef.current)`. -/
def insertEscape (s : EditorState) (cursor : Int) : EditorState × Int :=
  ({ s with
      mode := .NORMAL,
      hist :=
        if s.insertDirty && !s.insertSkipCommit then
          commitToHistory s.hist s.insertBase
        else s.hist,
      insertSkipCommit := false,
      insertDirty := false,
      insertBase := none },
    max 0 cursor)

/-- `applyChangeAndEnterInsert` (and the `cc`/`cp`/`cl`/`ce` chords): push the
changed snapshot, set the skip-commit flag, then enter INSERT. -/
def enterInsertViaChange (s : EditorState) (changed : HistoryState) : EditorState :=
  enterInsert { s with hist := pushState s.hist changed, insertSkipCommit := true }

theorem foldl_updateTextInsert (edits : List String) (s : EditorState) :
    (edits.foldl updateTextInsert s).hist.past = s.hist.past ∧
    (edits.foldl updateTextInsert s).hist.future = s.hist.future ∧
    (edits.foldl updateTextInsert s).mode = s.mode ∧
    (edits.foldl updateTextInsert s).insertBase = s.insertBase ∧
    (edits.foldl updateTextInsert s).insertSkipCommit = s.insertSkipCommit ∧
    (s.mode = .INSERT → edits ≠ [] →
      (edits.foldl updateTextInsert s).insertDirty = true) := by
  induction edits generalizing s with
  | nil => simp
  | cons t ts ih =>
      obtain ⟨h1, h2, h3, h4, h5, h6⟩ := ih (updateTextInsert s t)
      refine ⟨h1, h2, h3, h4, h5, ?_⟩
      intro hm _
      rcases ts with _ | ⟨u, us⟩
      · simp [updateTextInsert, hm]
      · exact h6 hm (by simp)

/-- C2.  An Insert session entered from NORMAL (base unset, no pending
skip-commit) with at least one edit followed by Escape appends exactly one
entry to the past stack — the snapshot remembered on entering Insert — so a
single `undo` restores the pre-session state.  With no edit the history is
untouched, and for a session triggered by a change operation (which pushed a
state and set the skip flag) no additional entry is appended. -/
theorem C2_insert_session_commit (s : EditorState) (edits : List String)
    (cursor : Int) (_hmode : s.mode = Mode.NORMAL) (hbase : s.insertBase = none)
    (hskip : s.insertSkipCommit = false) :
    (edits ≠ [] →
      (insertEscape (edits.foldl updateTextInsert (enterInsert s)) cursor).1.hist.past
          = s.hist.past ++ [s.hist.present] ∧
      (undo (insertEscape (edits.foldl updateTextInsert (enterInsert s)) cursor).1.hist).present
          = s.hist.present) ∧
    (insertEscape (enterInsert s) cursor).1.hist = s.hist ∧
    (∀ changed : HistoryState,
      (insertEscape (edits.foldl updateTextInsert (enterInsertViaChange s changed)) cursor).1.hist.past
        = s.hist.past ++ [s.hist.present]) := by
  refine ⟨?_, ?_, ?_⟩
  · intro hne
    obtain ⟨h1, _h2, _h3, h4, h5, h6⟩ :=
      foldl_updateTextInsert edits (enterInsert s)
    have h1' : (edits.foldl updateTextInsert (enterInsert s)).hist.past = s.hist.past := h1
    have hdirty := h6 rfl hne
    have hbase' : (enterInsert s).insertBase = some s.hist.present := by
      simp [enterInsert, hbase]
    have hskip' : (edits.foldl updateTextInsert (enterInsert s)).insertSkipCommit = false := by
      rw [h5]
      exact hskip
    have hcond : ((edits.foldl updateTextInsert (enterInsert s)).insertDirty &&
        !(edits.foldl updateTextInsert (enterInsert s)).insertSkipCommit) = true := by
      rw [hdirty, hskip']
      rfl
    have hhist : (insertEscape (edits.foldl updateTextInsert (enterInsert s)) cursor).1.hist =
        commitToHistory (edits.foldl updateTextInsert (enterInsert s)).hist
          (edits.foldl updateTextInsert (enterInsert s)).insertBase := by
      simp [insertEscape, hcond]
    have hpast : (insertEscape (edits.foldl updateTextInsert (enterInsert s)) cursor).1.hist.past
        = s.hist.past ++ [s.hist.present] := by
      rw [hhist, h4, hbase']
      simp only [commitToHistory, commitFrom]
      rw [h1']
    refine ⟨hpast, ?_⟩
    simp [undo, hpast]
  · simp [insertEscape, enterInsert]
  · intro changed
    obtain ⟨h1, _h2, _h3, _h4, h5, _h6⟩ :=
      foldl_updateTextInsert edits (enterInsertViaChange s changed)
    have h1' : (edits.foldl updateTextInsert (enterInsertViaChange s changed)).hist.past
        = s.hist.past ++ [s.hist.present] := h1
    have hskip' : (edits.foldl updateTextInsert (enterInsertViaChange s changed)).insertSkipCommit = true := by
      rw [h5]
      rfl
    have hcond : ((edits.foldl updateTextInsert (enterInsertViaChange s changed)).insertDirty &&
        !(edits.foldl updateTextInsert (enterInsertViaChange s changed)).insertSkipCommit) = false := by
      rw [hskip']
      simp
    have hhist : (insertEscape (edits.foldl updateTextInsert (enterInsertViaChange s changed)) cursor).1.hist =
        (edits.foldl updateTextInsert (enterInsertViaChange s changed)).hist := by
      simp [insertEscape, hcond]
    rw [hhist, h1']

theorem C2_insert_session_commit_witness :
    ((⟨⟨[], sampleState 0, []⟩, Mode.NORMAL, false, false, none⟩ : EditorState).mode = Mode.NORMAL ∧
      (⟨⟨[], sampleState 0, []⟩, Mode.NORMAL, false, false, none⟩ : EditorState).insertBase = none ∧
      (⟨⟨[], sampleState 0, []⟩, Mode.NORMAL, false, false, none⟩ : EditorState).insertSkipCommit = false) ∧
    ((["X"] ≠ ([] : List String) →
      (insertEscape ((["X"] : List String).foldl updateTextInsert
          (enterInsert ⟨⟨[], sampleState 0, []⟩, Mode.NORMAL, false, false, none⟩)) 0).1.hist.past
          = (⟨[], sampleState 0, []⟩ : History).past ++ [(⟨[], sampleState 0, []⟩ : History).present] ∧
      (undo (insertEscape ((["X"] : List String).foldl updateTextInsert
          (enterInsert ⟨⟨[], sampleState 0, []⟩, Mode.NORMAL, false, false, none⟩)) 0).1.hist).present
          = (⟨[], sampleState 0, []⟩ : History).present) ∧
    (insertEscape (enterInsert ⟨⟨[], sampleState 0, []⟩, Mode.NORMAL, false, false, none⟩) 0).1.hist
        = (⟨[], sampleState 0, []⟩ : History) ∧
    (∀ changed : HistoryState,
      (insertEscape ((["X"] : List String).foldl updateTextInsert
          (enterInsertViaChange ⟨⟨[], sampleState 0, []⟩, Mode.NORMAL, false, false, none⟩ changed)) 0).1.hist.past
        = (⟨[], sampleState 0, []⟩ : History).past ++ [(⟨[], sampleState 0, []⟩ : History).present])) :=
  ⟨⟨rfl, rfl, rfl⟩,
    C2_insert_session_commit ⟨⟨[], sampleState 0, []⟩, Mode.NORMAL, false, false, none⟩
      ["X"] 0 rfl rfl rfl⟩

/-! ## C9: INSERT Escape and the cursor -/

def escapeSampleEditor : EditorState :=
  ⟨⟨[], sampleState 0, []⟩, Mode.INSERT, true, false, some (sampleState 0)⟩

/-- C9 counterexample.  At cursor offset 1, Escape leaves the cursor at
`max 0 1 = 1`, not at `max 0 (1 - 1) = 0` as the claim states: the source sets
`Math.max(0, normalCursorRef.current)` with no decrement. -/
theorem C9_escape_cursor_counterexample :
    (insertEscape escapeSampleEditor 1).2 = 1 ∧
    (insertEscape escapeSampleEditor 1).2 ≠ max 0 (1 - 1 : Int) := by
  refine ⟨rfl, ?_⟩
  decide

/-- C9 amended.  Escape in INSERT mode commits the session (when dirty, with a
remembered base, and not suppressed), returns the mode to NORMAL, and sets the
cursor to `max 0 c` — the position is kept, clamped at 0, not moved back. -/
theorem C9_escape_cursor (s : EditorState) (cursor : Int) (b : HistoryState)
    (hdirty : s.insertDirty = true) (hskip : s.insertSkipCommit = false)
    (hbase : s.insertBase = some b) :
    (insertEscape s cursor).1.mode = Mode.NORMAL ∧
    (insertEscape s cursor).1.hist.past = s.hist.past ++ [b] ∧
    (insertEscape s cursor).2 = max 0 cursor := by
  refine ⟨rfl, ?_, rfl⟩
  simp [insertEscape, hdirty, hskip, hbase, commitToHistory, commitFrom]

theorem C9_escape_cursor_witness :
    (escapeSampleEditor.insertDirty = true ∧
      escapeSampleEditor.insertSkipCommit = false ∧
      escapeSampleEditor.insertBase = some (sampleState 0)) ∧
    ((insertEscape escapeSampleEditor 5).1.mode = Mode.NORMAL ∧
      (insertEscape escapeSampleEditor 5).1.hist.past =
        escapeSampleEditor.hist.past ++ [sampleState 0] ∧
      (insertEscape escapeSampleEditor 5).2 = max 0 5) :=
  ⟨⟨rfl, rfl, rfl⟩, C9_escape_cursor escapeSampleEditor 5 (sampleState 0) rfl rfl rfl⟩

/-! ## C8: cursor clamping for NORMAL-mode motions and mutations -/

/-- NORMAL `h`: `Math.max(0, c - 1)`. -/
def motionH (c : Int) : Int := max 0 (c - 1)

/-- NORMAL `l`: `Math.min(text.length - 1, c + 1)` — `-1` on the empty text. -/
def motionL (text : List Char) (c : Int) : Int :=
  min ((text.length : Int) - 1) (c + 1)

/-- NORMAL `0`. -/
def motionZero : Int := 0

/-- NORMAL `$`: `text.length - 1` — `-1` on the empty text. -/
def motionDollar (text : List Char) : Int := (text.length : Int) - 1

/-- NORMAL `j`. -/
def motionJ (text : List Char) (c : Int) : Int := moveCursorLine text c 1

/-- NORMAL `k`. -/
def motionK (text : List Char) (c : Int) : Int := moveCursorLine text c (-1)

/-- `deleteRange` with its index clamps. -/
def deleteRange (text : List Char) (s e : Nat) : List Char :=
  let safeStart := min s text.length
  let safeEnd := max safeStart (min e text.length)
  text.take safeStart ++ text.drop safeEnd

/-- NORMAL `x`: delete the char under the cursor,
cursor `min(c, max(0, newLength - 1))` (`Nat` subtraction is the `max 0`). -/
def normalX (text : List Char) (c : Nat) : List Char × Nat :=
  let newText := deleteRange text c (c + 1)
  (newText, min c (newText.length - 1))

/-- NORMAL `dw`. -/
def normalDW (text : List Char) (c : Nat) : List Char × Nat :=
  let newText := deleteRange text c (findNextWord text c)
  (newText, min c newText.length)

/-- NORMAL `de`. -/
def normalDE (text : List Char) (c : Nat) : List Char × Nat :=
  let newText := deleteRange text c (min text.length (findEndWord text c + 1))
  (newText, min c newText.length)

/-- NORMAL `db`. -/
def normalDB (text : List Char) (c : Nat) : List Char × Nat :=
  let start := findPrevWord text c
  (deleteRange text start c, start)

/-- `deleteCurrentLine`. -/
def deleteCurrentLine (text : List Char) (c : Nat) : List Char × Nat :=
  let lineStart := findLineStart text c
  let lineEnd := findLineEnd text c
  let span :=
    if lineEnd < text.length then (lineStart, lineEnd + 1)
    else if 0 < lineStart then (lineStart - 1, lineEnd)
    else (lineStart, lineEnd)
  (deleteRange text span.1 span.2, span.1)

/-- NORMAL `dd`: delete the current line, cursor `min(nextCursor, newLength)`. -/
def normalDD (text : List Char) (c : Nat) : List Char × Nat :=
  let r := deleteCurrentLine text c
  (r.1, min r.2 r.1.length)

/-- NORMAL `cw` (`applyChangeAndEnterInsert` — same text/cursor math as `dw`). -/
def normalCW (text : List Char) (c : Nat) : List Char × Nat :=
  let newText := deleteRange text c (findNextWord text c)
  (newText, min c newText.length)

/-- NORMAL `ce`. -/
def normalCE (text : List Char) (c : Nat) : List Char × Nat :=
  let newText := deleteRange text c (min text.length (findEndWord text c + 1))
  (newText, min c newText.length)

/-- NORMAL `cb`. -/
def normalCB (text : List Char) (c : Nat) : List Char × Nat :=
  let start := findPrevWord text c
  (deleteRange text start c, start)

/-- NORMAL `cc`. -/
def normalCC (text : List Char) (c : Nat) : List Char × Nat :=
  let r := deleteCurrentLine text c
  (r.1, min r.2 r.1.length)

/-- NORMAL `o`: insert a newline at the line end, cursor `lineEnd + 1`. -/
def normalO (text : List Char) (c : Nat) : List Char × Nat :=
  let lineEnd := findLineEnd text c
  (text.take lineEnd ++ '\n' :: text.drop lineEnd, lineEnd + 1)

/-- NORMAL `O`: insert a newline at the line start, cursor `lineStart`. -/
def normalBigO (text : List Char) (c : Nat) : List Char × Nat :=
  let lineStart := findLineStart text c
  (text.take lineStart ++ '\n' :: text.drop lineStart, lineStart)

/-! Bounds lemmas for the motion primitives. -/

theorem skipWordAux_bounds (l : List Char) (i : Nat) :
    i ≤ skipWordAux l i ∧ skipWordAux l i ≤ i + l.length := by
  induction l generalizing i with
  | nil => simp [skipWordAux]
  | cons c rest ih =>
      simp only [skipWordAux]
      split
      · obtain ⟨a, b⟩ := ih (i + 1)
        refine ⟨by omega, ?_⟩
        simp only [List.length_cons]
        omega
      · refine ⟨le_rfl, ?_⟩
        simp only [List.length_cons]
        omega

theorem skipNonWordAux_bounds (l : List Char) (i : Nat) :
    i ≤ skipNonWordAux l i ∧ skipNonWordAux l i ≤ i + l.length := by
  induction l generalizing i with
  | nil => simp [skipNonWordAux]
  | cons c rest ih =>
      simp only [skipNonWordAux]
      split
      · refine ⟨le_rfl, ?_⟩
        simp only [List.length_cons]
        omega
      · obtain ⟨a, b⟩ := ih (i + 1)
        refine ⟨by omega, ?_⟩
        simp only [List.length_cons]
        omega

theorem extendWordAux_bounds (l : List Char) (i : Nat) :
    i ≤ extendWordAux l i ∧ extendWordAux l i ≤ i + l.length := by
  induction l generalizing i with
  | nil => simp [extendWordAux]
  | cons c rest ih =>
      simp only [extendWordAux]
      split
      · obtain ⟨a, b⟩ := ih (i + 1)
        refine ⟨by omega, ?_⟩
        simp only [List.length_cons]
        omega
      · refine ⟨le_rfl, ?_⟩
        simp only [List.length_cons]
        omega

theorem findNextWord_le (text : List Char) (idx : Nat) :
    findNextWord text idx ≤ text.length := by
  simp only [findNextWord]
  split
  · exact le_rfl
  · rename_i h
    obtain ⟨a1, b1⟩ := skipWordAux_bounds (text.drop idx) idx
    obtain ⟨a2, b2⟩ := skipNonWordAux_bounds
      (text.drop (skipWordAux (text.drop idx) idx)) (skipWordAux (text.drop idx) idx)
    simp only [List.length_drop] at b1 b2
    omega

theorem skipNonWordBack_le (text : List Char) (j : Nat) :
    skipNonWordBack text j ≤ j := by
  induction j with
  | zero => simp [skipNonWordBack]
  | succ j ih =>
      simp only [skipNonWordBack]
      split <;> omega

theorem skipWordStartBack_le (text : List Char) (j : Nat) :
    skipWordStartBack text j ≤ j := by
  induction j with
  | zero => simp [skipWordStartBack]
  | succ j ih =>
      simp only [skipWordStartBack]
      split <;> omega

theorem findPrevWord_le (text : List Char) (idx : Nat) :
    findPrevWord text idx ≤ idx := by
  simp only [findPrevWord]
  split
  · omega
  · have h1 := skipNonWordBack_le text (idx - 1)
    have h2 := skipWordStartBack_le text (skipNonWordBack text (idx - 1))
    omega

theorem extendWordEnd_le (text : List Char) (i : Nat) (h : i < text.length) :
    extendWordEnd text i ≤ text.length - 1 := by
  obtain ⟨a, b⟩ := extendWordAux_bounds (text.drop (i + 1)) i
  simp only [List.length_drop] at b
  simp only [extendWordEnd]
  omega

theorem findEndWord_le (text : List Char) (idx : Nat) (h : 0 < text.length) :
    findEndWord text idx ≤ text.length - 1 := by
  simp only [findEndWord]
  rw [if_neg (by omega)]
  obtain ⟨a, b⟩ := skipNonWordAux_bounds
    (text.drop (min idx (text.length - 1) + 1)) (min idx (text.length - 1) + 1)
  simp only [List.length_drop] at b
  split_ifs with h1 h2
  · omega
  · exact extendWordEnd_le text _ (by omega)
  · exact extendWordEnd_le text _ (by omega)

theorem findEndWord_le_len (text : List Char) (idx : Nat) :
    findEndWord text idx ≤ text.length := by
  by_cases h : text.length = 0
  · simp [findEndWord, h]
  · have := findEndWord_le text idx (by omega)
    omega

theorem getD_out (l : List Char) (n : Nat) (d : Char) (h : l.length ≤ n) :
    l.getD n d = d := by
  simp [List.getD, List.getElem?_eq_none h]

theorem newline_pos_lt (text : List Char) (n : Nat)
    (h : (text.getD n 'a' == '\n') = true) : n < text.length := by
  by_contra hn
  rw [getD_out text n 'a' (by omega)] at h
  simp at h

theorem findLineStartGo_le (text : List Char) (j : Nat) :
    findLineStartGo text j ≤ j + 1 := by
  induction j with
  | zero =>
      simp only [findLineStartGo]
      split <;> omega
  | succ j ih =>
      simp only [findLineStartGo]
      split <;> omega

theorem findLineStartGo_le_len (text : List Char) (j : Nat) :
    findLineStartGo text j ≤ text.length := by
  induction j with
  | zero =>
      simp only [findLineStartGo]
      split
      · rename_i h
        have := newline_pos_lt text 0 h
        omega
      · omega
  | succ j ih =>
      simp only [findLineStartGo]
      split
      · rename_i h
        have := newline_pos_lt text (j + 1) h
        omega
      · omega

theorem findLineStart_le_len (text : List Char) (idx : Nat) :
    findLineStart text idx ≤ text.length :=
  findLineStartGo_le_len text (idx - 1)

theorem findLineEndAux_bounds (l : List Char) (i : Nat) :
    i ≤ findLineEndAux l i ∧ findLineEndAux l i ≤ i + l.length := by
  induction l generalizing i with
  | nil => simp [findLineEndAux]
  | cons c rest ih =>
      simp only [findLineEndAux]
      split
      · refine ⟨le_rfl, ?_⟩
        simp only [List.length_cons]
        omega
      · obtain ⟨a, b⟩ := ih (i + 1)
        refine ⟨by omega, ?_⟩
        simp only [List.length_cons]
        omega

theorem findLineEnd_bounds (text : List Char) (idx : Nat) (h : idx ≤ text.length) :
    idx ≤ findLineEnd text idx ∧ findLineEnd text idx ≤ text.length := by
  simp only [findLineEnd]
  obtain ⟨a, b⟩ := findLineEndAux_bounds (text.drop idx) idx
  simp only [List.length_drop] at b
  exact ⟨a, by omega⟩

theorem moveCursorLine_bounds (text : List Char) (idx d : Int)
    (h0 : 0 ≤ idx) (hl : idx ≤ (text.length : Int)) :
    0 ≤ moveCursorLine text idx d ∧ moveCursorLine text idx d ≤ (text.length : Int) := by
  have htn : idx.toNat ≤ text.length := by omega
  have hlsA : findLineStart text idx.toNat ≤ idx.toNat - 1 + 1 :=
    findLineStartGo_le text (idx.toNat - 1)
  have hlsLen : findLineStart text idx.toNat ≤ text.length :=
    findLineStart_le_len text idx.toNat
  obtain ⟨hle1, hle2⟩ := findLineEnd_bounds text idx.toNat htn
  have hpsLen : findLineStart text (findLineStart text idx.toNat - 1) ≤ text.length :=
    findLineStart_le_len text (findLineStart text idx.toNat - 1)
  have hls0le : findLineStart text 0 ≤ 1 := findLineStartGo_le text 0
  simp only [moveCursorLine]
  split_ifs with h1 h2 h3 h4
  all_goals try exact ⟨h0, hl⟩
  all_goals try
    (obtain ⟨hne1, hne2⟩ :=
      findLineEnd_bounds text (findLineEnd text idx.toNat + 1) (by omega)
     constructor <;> omega)
  all_goals rcases Nat.eq_zero_or_pos idx.toNat with hz | hpos
  · have hlz : findLineStart text idx.toNat = findLineStart text 0 := by
      rw [hz]
    have hpz : findLineStart text (findLineStart text idx.toNat - 1) =
        findLineStart text 0 := by
      rw [hlz]
      have he : findLineStart text 0 - 1 = 0 := by omega
      rw [he]
    constructor <;> omega
  · constructor <;> omega

theorem deleteRange_length_ge (text : List Char) (s e : Nat) :
    min s text.length ≤ (deleteRange text s e).length := by
  simp only [deleteRange, List.length_append, List.length_take, List.length_drop]
  omega

theorem insertNl_length (text : List Char) (p : Nat) (hp : p ≤ text.length) :
    (text.take p ++ '\n' :: text.drop p).length = text.length + 1 := by
  simp only [List.length_append, List.length_take, List.length_cons, List.length_drop]
  omega

/-- C8 counterexample.  On the empty text with cursor 0, `l` sets the cursor
to `min(-1, 1) = -1` and `$` sets it to `-1`: the cursor can be negative. -/
theorem C8_cursor_counterexample :
    motionL ([] : List Char) 0 = -1 ∧ motionL ([] : List Char) 0 < 0 ∧
    motionDollar ([] : List Char) = -1 := by
  refine ⟨?_, ?_, ?_⟩ <;> decide

/-- C8 amended.  For a cursor in `[0, text.length]`: every NORMAL-mode motion
keeps the cursor in `[0, text.length]` (with `l`, `$` and `e` in
`[0, text.length - 1]` on non-empty text), and every NORMAL-mode text mutation
(`x`, `dw`, `de`, `db`, `dd`, `cw`, `ce`, `cb`, `cc`, `o`, `O`, paste) leaves
the cursor in `[0, newText.length]`; but on the EMPTY text `l` and `$` set the
cursor to `-1` (the `text.length - 1` formula), while the other motions keep
it at its clamped value. -/
theorem C8_cursor_clamped (text : List Char) (c : Int)
    (hc0 : 0 ≤ c) (hcl : c ≤ (text.length : Int)) :
    ((0 ≤ motionH c ∧ motionH c ≤ (text.length : Int)) ∧
     (0 ≤ motionJ text c ∧ motionJ text c ≤ (text.length : Int)) ∧
     (0 ≤ motionK text c ∧ motionK text c ≤ (text.length : Int)) ∧
     motionZero = 0 ∧
     findNextWord text c.toNat ≤ text.length ∧
     findPrevWord text c.toNat ≤ text.length ∧
     findEndWord text c.toNat ≤ text.length) ∧
    (0 < text.length →
      (0 ≤ motionL text c ∧ motionL text c ≤ (text.length : Int) - 1) ∧
      (0 ≤ motionDollar text ∧ motionDollar text ≤ (text.length : Int) - 1) ∧
      findEndWord text c.toNat ≤ text.length - 1) ∧
    ((normalX text c.toNat).2 ≤ (normalX text c.toNat).1.length ∧
     (normalDW text c.toNat).2 ≤ (normalDW text c.toNat).1.length ∧
     (normalDE text c.toNat).2 ≤ (normalDE text c.toNat).1.length ∧
     (normalDB text c.toNat).2 ≤ (normalDB text c.toNat).1.length ∧
     (normalDD text c.toNat).2 ≤ (normalDD text c.toNat).1.length ∧
     (normalCW text c.toNat).2 ≤ (normalCW text c.toNat).1.length ∧
     (normalCE text c.toNat).2 ≤ (normalCE text c.toNat).1.length ∧
     (normalCB text c.toNat).2 ≤ (normalCB text c.toNat).1.length ∧
     (normalCC text c.toNat).2 ≤ (normalCC text c.toNat).1.length ∧
     (normalO text c.toNat).2 ≤ (normalO text c.toNat).1.length ∧
     (normalBigO text c.toNat).2 ≤ (normalBigO text c.toNat).1.length ∧
     (∀ yank : List Char, 0 ≤ (pasteTextNormal text c yank).2 ∧
        (pasteTextNormal text c yank).2 ≤ ((pasteTextNormal text c yank).1.length : Int))) ∧
    (text.length = 0 →
      motionL text c = -1 ∧ motionDollar text = -1 ∧ motionH c = 0 ∧
      motionJ text c = c ∧ motionK text c = c) := by
  have hcn : c.toNat ≤ text.length := by omega
  refine ⟨⟨?_, ?_, ?_, rfl, ?_, ?_, ?_⟩, ?_, ⟨?_, ?_, ?_, ?_, ?_, ?_, ?_, ?_, ?_, ?_, ?_, ?_⟩, ?_⟩
  · constructor
    · exact le_max_left _ _
    · simp only [motionH]
      omega
  · exact moveCursorLine_bounds text c 1 hc0 hcl
  · exact moveCursorLine_bounds text c (-1) hc0 hcl
  · exact findNextWord_le text c.toNat
  · exact le_trans (findPrevWord_le text c.toNat) hcn
  · exact findEndWord_le_len text c.toNat
  · intro hpos
    refine ⟨⟨?_, ?_⟩, ⟨?_, ?_⟩, findEndWord_le text c.toNat hpos⟩ <;>
      simp only [motionL, motionDollar] <;> omega
  · simp only [normalX]
    omega
  · simp only [normalDW]
    omega
  · simp only [normalDE]
    omega
  · simp only [normalDB]
    have h1 := findPrevWord_le text c.toNat
    have h2 := deleteRange_length_ge text (findPrevWord text c.toNat) c.toNat
    omega
  · simp only [normalDD]
    omega
  · simp only [normalCW]
    omega
  · simp only [normalCE]
    omega
  · simp only [normalCB]
    have h1 := findPrevWord_le text c.toNat
    have h2 := deleteRange_length_ge text (findPrevWord text c.toNat) c.toNat
    omega
  · simp only [normalCC]
    omega
  · simp only [normalO]
    obtain ⟨a, b⟩ := findLineEnd_bounds text c.toNat hcn
    rw [insertNl_length text (findLineEnd text c.toNat) b]
    omega
  · simp only [normalBigO]
    have hb := findLineStart_le_len text c.toNat
    rw [insertNl_length text (findLineStart text c.toNat) hb]
    omega
  · intro yank
    have hins : (max 0 (min ((text.length : Int)) c)).toNat ≤ text.length := by omega
    constructor
    · simp only [pasteTextNormal]
      omega
    · simp only [pasteTextNormal, List.length_append, List.length_take, List.length_drop]
      push_cast
      omega
  · intro h0
    have hte : text = [] := List.length_eq_zero.mp h0
    subst hte
    have hc : c = 0 := by
      simp only [List.length_nil, Nat.cast_zero] at hcl
      omega
    subst hc
    refine ⟨by decide, by decide, by decide, by decide, by decide⟩

theorem C8_cursor_clamped_witness :
    ((0 : Int) ≤ 1 ∧ (1 : Int) ≤ (("ab".toList : List Char).length : Int)) ∧
    (((0 ≤ motionH 1 ∧ motionH 1 ≤ (("ab".toList : List Char).length : Int)) ∧
     (0 ≤ motionJ ("ab".toList) 1 ∧ motionJ ("ab".toList) 1 ≤ (("ab".toList : List Char).length : Int)) ∧
     (0 ≤ motionK ("ab".toList) 1 ∧ motionK ("ab".toList) 1 ≤ (("ab".toList : List Char).length : Int)) ∧
     motionZero = 0 ∧
     findNextWord ("ab".toList) (1 : Int).toNat ≤ ("ab".toList : List Char).length ∧
     findPrevWord ("ab".toList) (1 : Int).toNat ≤ ("ab".toList : List Char).length ∧
     findEndWord ("ab".toList) (1 : Int).toNat ≤ ("ab".toList : List Char).length) ∧
    (0 < ("ab".toList : List Char).length →
      (0 ≤ motionL ("ab".toList) 1 ∧ motionL ("ab".toList) 1 ≤ (("ab".toList : List Char).length : Int) - 1) ∧
      (0 ≤ motionDollar ("ab".toList) ∧ motionDollar ("ab".toList) ≤ (("ab".toList : List Char).length : Int) - 1) ∧
      findEndWord ("ab".toList) (1 : Int).toNat ≤ ("ab".toList : List Char).length - 1) ∧
    ((normalX ("ab".toList) (1 : Int).toNat).2 ≤ (normalX ("ab".toList) (1 : Int).toNat).1.length ∧
     (normalDW ("ab".toList) (1 : Int).toNat).2 ≤ (normalDW ("ab".toList) (1 : Int).toNat).1.length ∧
     (normalDE ("ab".toList) (1 : Int).toNat).2 ≤ (normalDE ("ab".toList) (1 : Int).toNat).1.length ∧
     (normalDB ("ab".toList) (1 : Int).toNat).2 ≤ (normalDB ("ab".toList) (1 : Int).toNat).1.length ∧
     (normalDD ("ab".toList) (1 : Int).toNat).2 ≤ (normalDD ("ab".toList) (1 : Int).toNat).1.length ∧
     (normalCW ("ab".toList) (1 : Int).toNat).2 ≤ (normalCW ("ab".toList) (1 : Int).toNat).1.length ∧
     (normalCE ("ab".toList) (1 : Int).toNat).2 ≤ (normalCE ("ab".toList) (1 : Int).toNat).1.length ∧
     (normalCB ("ab".toList) (1 : Int).toNat).2 ≤ (normalCB ("ab".toList) (1 : Int).toNat).1.length ∧
     (normalCC ("ab".toList) (1 : Int).toNat).2 ≤ (normalCC ("ab".toList) (1 : Int).toNat).1.length ∧
     (normalO ("ab".toList) (1 : Int).toNat).2 ≤ (normalO ("ab".toList) (1 : Int).toNat).1.length ∧
     (normalBigO ("ab".toList) (1 : Int).toNat).2 ≤ (normalBigO ("ab".toList) (1 : Int).toNat).1.length ∧
     (∀ yank : List Char, 0 ≤ (pasteTextNormal ("ab".toList) 1 yank).2 ∧
        (pasteTextNormal ("ab".toList) 1 yank).2 ≤ ((pasteTextNormal ("ab".toList) 1 yank).1.length : Int))) ∧
    (("ab".toList : List Char).length = 0 →
      motionL ("ab".toList) 1 = -1 ∧ motionDollar ("ab".toList) = -1 ∧ motionH 1 = 0 ∧
      motionJ ("ab".toList) 1 = 1 ∧ motionK ("ab".toList) 1 = 1)) :=
  ⟨⟨by decide, by decide⟩, C8_cursor_clamped ("ab".toList) 1 (by decide) (by decide)⟩

/-! ## C7: search navigation -/

structure SearchItem where
  cIdx : Nat
  dIdx : Int
  text : String
deriving DecidableEq, Repr

instance : Inhabited SearchItem := ⟨⟨0, -1, ""⟩⟩

def derivItems (ci : Nat) : List Derivative → Nat → List SearchItem
  | [], _ => []
  | d :: rest, di => ⟨ci, (di : Int), d.text⟩ :: derivItems ci rest (di + 1)

/-- The flattened `(concept, derivative-or-none, text)` list built by
`navigateSearch`: each concept followed by its derivatives, in order. -/
def flattenGo : List Concept → Nat → List SearchItem
  | [], _ => []
  | c :: rest, ci => ⟨ci, -1, c.text⟩ :: (derivItems ci c.derivatives 0 ++ flattenGo rest (ci + 1))

def flattenItems (topic : Topic) : List SearchItem :=
  flattenGo topic.concepts 0

/-- `toLowerCase`, character by character. -/
def lowerChars (s : String) : List Char := s.toList.map Char.toLower

def listStartsWith : List Char → List Char → Bool
  | [], _ => true
  | _ :: _, [] => false
  | a :: as, b :: bs => a == b && listStartsWith as bs

/-- `hay.indexOf(needle)` as an `Option Nat`. -/
def firstMatchPos (needle : List Char) : List Char → Nat → Option Nat
  | [], i => if listStartsWith needle [] then some i else none
  | c :: rest, i =>
      if listStartsWith needle (c :: rest) then some i
      else firstMatchPos needle rest (i + 1)

/-- `item.text.toLowerCase().includes(q)`. -/
def itemMatches (q : List Char) (it : SearchItem) : Bool :=
  (firstMatchPos q (lowerChars it.text) 0).isSome

/-- `items.findIndex(...)` for the current focus, with `-1` replaced by 0. -/
def searchPos (items : List SearchItem) (ci : Nat) (di : Int) : Nat :=
  (items.findIdx? (fun it => it.cIdx == ci && it.dIdx == di)).getD 0

/-- The index scan order of the two `for` loops: forward goes
`pos+1 … len-1` then wraps `0 … pos`; backward goes `pos-1 … 0` then wraps
`len-1 … pos+1` — the backward wrap never revisits `pos` itself. -/
def scanOrder (len pos : Nat) (reverse : Bool) : List Nat :=
  if reverse then
    (List.range pos).reverse ++ (List.range' (pos + 1) (len - (pos + 1))).reverse
  else
    List.range' (pos + 1) (len - (pos + 1)) ++ List.range (pos + 1)

def searchFound (items : List SearchItem) (q : List Char) (pos : Nat)
    (reverse : Bool) : Option Nat :=
  (scanOrder items.length pos reverse).find? (fun i => itemMatches q (items.getD i default))

/-- `navigateSearch`: `none` models the no-op (empty query or no hit); a hit
carries the new focus and, when `indexOf` succeeds, the new character
cursor. -/
def navigateSearch (topic : Topic) (ci : Nat) (di : Int) (query : String)
    (reverse : Bool) : Option (Nat × Int × Option Nat) :=
  if query = "" then none
  else
    match searchFound (flattenItems topic) (lowerChars query)
        (searchPos (flattenItems topic) ci di) reverse with
    | none => none
    | some i =>
        let target := (flattenItems topic).getD i default
        some (target.cIdx, target.dIdx, firstMatchPos (lowerChars query) (lowerChars target.text) 0)

theorem itemMatches_default_false (q : List Char) (hq : q ≠ []) :
    itemMatches q default = false := by
  rcases q with _ | ⟨a, as⟩
  · exact absurd rfl hq
  · rfl

theorem lowerChars_ne_nil (q : String) (hq : q ≠ "") : lowerChars q ≠ [] := by
  intro h
  apply hq
  have hlen : q.toList.length = 0 := by
    have := congrArg List.length h
    simpa [lowerChars] using this
  exact String.ext (List.length_eq_zero.mp hlen)

theorem mem_scanOrder_fwd (len pos i : Nat) (hi : i < len) :
    i ∈ scanOrder len pos false := by
  rw [scanOrder, if_neg (by simp)]
  by_cases hip : i ≤ pos
  · exact List.mem_append_right _ (List.mem_range.2 (by omega))
  · refine List.mem_append_left _ ?_
    rw [List.mem_range'_1]
    omega

theorem mem_scanOrder_bwd (len pos i : Nat) (hi : i < len) (hne : i ≠ pos) :
    i ∈ scanOrder len pos true := by
  rw [scanOrder, if_pos rfl]
  by_cases hip : i < pos
  · refine List.mem_append_left _ ?_
    rw [List.mem_reverse]
    exact List.mem_range.2 hip
  · refine List.mem_append_right _ ?_
    rw [List.mem_reverse, List.mem_range'_1]
    omega

theorem searchFound_lt (items : List SearchItem) (q : List Char) (pos : Nat)
    (rev : Bool) (i : Nat) (hq : q ≠ [])
    (h : searchFound items q pos rev = some i) :
    i < items.length ∧ itemMatches q (items.getD i default) = true := by
  have hp := List.find?_some h
  refine ⟨?_, hp⟩
  by_contra hlen
  rw [List.getD_eq_getElem?_getD, List.getElem?_eq_none (by omega),
    Option.getD_none, itemMatches_default_false q hq] at hp
  exact Bool.false_ne_true hp

theorem searchFound_complete (items : List SearchItem) (q : List Char)
    (pos : Nat) (rev : Bool) (i : Nat) (_hi : i < items.length)
    (hmem : i ∈ scanOrder items.length pos rev)
    (hm : itemMatches q (items.getD i default) = true) :
    searchFound items q pos rev ≠ none := by
  intro hnone
  rw [searchFound, List.find?_eq_none] at hnone
  exact absurd hm (by simpa using hnone i hmem)

/-- C7 counterexample.  On a document whose single entry is the focused
concept `"a cloze term"`, the backward repeat (`N`) for `"cloze"` is a no-op —
the backward wrap loop `for (i = len-1; i > currentPos; i--)` never scans the
entry holding the focus — although that entry matches (the forward scan, which
does wrap onto the focused entry, finds it at offset 2).  So backward search
does not wrap "through the whole list" as claimed. -/
theorem C7_search_counterexample :
    navigateSearch ⟨"t", "T", [⟨"c1", "a cloze term", none, []⟩]⟩ 0 (-1) "cloze" true = none ∧
    itemMatches (lowerChars "cloze") ⟨0, -1, "a cloze term"⟩ = true ∧
    navigateSearch ⟨"t", "T", [⟨"c1", "a cloze term", none, []⟩]⟩ 0 (-1) "cloze" false =
      some (0, -1, some 2) := by
  refine ⟨?_, ?_, ?_⟩ <;> decide

/-- C7 amended.  Search repeat is a case-insensitive substring scan that
starts just after (forward) or just before (backward) the focused entry and
wraps cyclically; the forward scan covers the whole flattened list (ending on
the focused entry itself), while the backward scan covers every entry except
the focused one.  On a hit the focus moves to the matched entry and the
character cursor to the first match offset in that entry's text; an empty
query is a no-op.  The spec's concrete scenario holds: query `"cloze"` over
`["no match", "a cloze term"]` starting at the first entry moves focus to the
second with cursor 2. -/
theorem C7_search_navigation (topic : Topic) (ci : Nat) (di : Int)
    (q : String) (hq : q ≠ "") :
    (∀ r : Bool, navigateSearch topic ci di "" r = none) ∧
    (∀ (rev : Bool) (ci' : Nat) (di' : Int) (mc : Option Nat),
        navigateSearch topic ci di q rev = some (ci', di', mc) →
        ∃ it ∈ flattenItems topic, it.cIdx = ci' ∧ it.dIdx = di' ∧
          itemMatches (lowerChars q) it = true ∧
          mc = firstMatchPos (lowerChars q) (lowerChars it.text) 0) ∧
    ((∃ i, i < (flattenItems topic).length ∧
        itemMatches (lowerChars q) ((flattenItems topic).getD i default) = true) →
      navigateSearch topic ci di q false ≠ none) ∧
    ((∃ i, i < (flattenItems topic).length ∧ i ≠ searchPos (flattenItems topic) ci di ∧
        itemMatches (lowerChars q) ((flattenItems topic).getD i default) = true) →
      navigateSearch topic ci di q true ≠ none) ∧
    navigateSearch ⟨"t", "T", [⟨"c1", "no match", none, []⟩, ⟨"c2", "a cloze term", none, []⟩]⟩
        0 (-1) "cloze" false = some (1, -1, some 2) := by
  have hql := lowerChars_ne_nil q hq
  refine ⟨fun r => by simp [navigateSearch], ?_, ?_, ?_, by decide⟩
  · intro rev ci' di' mc h
    rw [navigateSearch, if_neg hq] at h
    rcases hfind : searchFound (flattenItems topic) (lowerChars q)
        (searchPos (flattenItems topic) ci di) rev with _ | i
    · rw [hfind] at h
      exact absurd h (by simp)
    · rw [hfind] at h
      simp only [Option.some.injEq, Prod.mk.injEq] at h
      obtain ⟨hlt, hm⟩ := searchFound_lt _ _ _ _ _ hql hfind
      refine ⟨(flattenItems topic).getD i default, ?_, h.1, h.2.1, hm, h.2.2.symm⟩
      rw [List.getD_eq_getElem?_getD, List.getElem?_eq_getElem hlt, Option.getD_some]
      exact List.getElem_mem hlt
  · rintro ⟨i, hi, hm⟩ hnone
    rw [navigateSearch, if_neg hq] at hnone
    rcases hfind : searchFound (flattenItems topic) (lowerChars q)
        (searchPos (flattenItems topic) ci di) false with _ | j
    · exact searchFound_complete _ _ _ _ i hi
        (mem_scanOrder_fwd _ _ _ hi) hm hfind
    · rw [hfind] at hnone
      exact absurd hnone (by simp)
  · rintro ⟨i, hi, hnp, hm⟩ hnone
    rw [navigateSearch, if_neg hq] at hnone
    rcases hfind : searchFound (flattenItems topic) (lowerChars q)
        (searchPos (flattenItems topic) ci di) true with _ | j
    · exact searchFound_complete _ _ _ _ i hi
        (mem_scanOrder_bwd _ _ _ hi hnp) hm hfind
    · rw [hfind] at hnone
      exact absurd hnone (by simp)

theorem C7_search_navigation_witness :
    ("cloze" ≠ "") ∧
    ((∀ r : Bool,
        navigateSearch ⟨"t", "T", [⟨"c1", "no match", none, []⟩]⟩ 0 (-1) "" r = none) ∧
    (∀ (rev : Bool) (ci' : Nat) (di' : Int) (mc : Option Nat),
        navigateSearch ⟨"t", "T", [⟨"c1", "no match", none, []⟩]⟩ 0 (-1) "cloze" rev =
          some (ci', di', mc) →
        ∃ it ∈ flattenItems ⟨"t", "T", [⟨"c1", "no match", none, []⟩]⟩,
          it.cIdx = ci' ∧ it.dIdx = di' ∧
          itemMatches (lowerChars "cloze") it = true ∧
          mc = firstMatchPos (lowerChars "cloze") (lowerChars it.text) 0) ∧
    ((∃ i, i < (flattenItems ⟨"t", "T", [⟨"c1", "no match", none, []⟩]⟩).length ∧
        itemMatches (lowerChars "cloze")
          ((flattenItems ⟨"t", "T", [⟨"c1", "no match", none, []⟩]⟩).getD i default) = true) →
      navigateSearch ⟨"t", "T", [⟨"c1", "no match", none, []⟩]⟩ 0 (-1) "cloze" false ≠ none) ∧
    ((∃ i, i < (flattenItems ⟨"t", "T", [⟨"c1", "no match", none, []⟩]⟩).length ∧
        i ≠ searchPos (flattenItems ⟨"t", "T", [⟨"c1", "no match", none, []⟩]⟩) 0 (-1) ∧
        itemMatches (lowerChars "cloze")
          ((flattenItems ⟨"t", "T", [⟨"c1", "no match", none, []⟩]⟩).getD i default) = true) →
      navigateSearch ⟨"t", "T", [⟨"c1", "no match", none, []⟩]⟩ 0 (-1) "cloze" true ≠ none) ∧
    navigateSearch ⟨"t", "T", [⟨"c1", "no match", none, []⟩, ⟨"c2", "a cloze term", none, []⟩]⟩
        0 (-1) "cloze" false = some (1, -1, some 2)) :=
  ⟨by decide, C7_search_navigation ⟨"t", "T", [⟨"c1", "no match", none, []⟩]⟩ 0 (-1) "cloze"
    (by decide)⟩

end Engram
